import Mathlib

/-!
Verification development for the weighted-spinner wheel component
(the `WeightedWheel` React component and its helpers: item validation,
weighted random pick, equal-partition slice layout, reflow blending,
spin rotation planning, the frame-stepped easing animation, and the
pop-removal effect).

The embedding is shallow: pure helper functions become Lean functions
(floating-point numbers are modelled as rationals where the code only
does field arithmetic and comparisons, and as real numbers where the
geometry involves pi); the stateful removal/spin effects become explicit
state-passing step functions over a `WheelState` record, with the
callback invocations (`onRemove`) modelled as an emitted output list.
Rendering (canvas drawing) is outside the model: it reads but never
writes the state considered here.
-/

namespace Spinner

open Real

/-- One wheel item: `type WheelItem = { value: string; weight: number }`.
Weights of validated items are finite JS numbers, modelled as rationals. -/
structure WheelItem where
  value : String
  weight : ℚ
deriving DecidableEq

/-- Source: `const keyOf = (it) => it.value`. -/
def keyOf (it : WheelItem) : String := it.value

/-- Source: `items.reduce((s, it) => s + it.weight, 0)`. -/
def totalWeight (items : List WheelItem) : ℚ :=
  items.foldl (fun s it => s + it.weight) 0

/-- The subtraction walk of `weightedPick`:
`for (const it of items) { r -= it.weight; if (r <= 0) return it; }`.
Returns `none` when the loop exhausts the list without the remainder
dropping to `<= 0`. -/
def weightedPickGo : List WheelItem → ℚ → Option WheelItem
  | [], _ => none
  | it :: rest, r =>
    if r - it.weight ≤ 0 then some it else weightedPickGo rest (r - it.weight)

/-- Source, lines 349-357:
```
function weightedPick(items) {
  const total = items.reduce((s, it) => s + it.weight, 0);
  let r = Math.random() * total;
  for (const it of items) { r -= it.weight; if (r <= 0) return it; }
  return items[items.length - 1];
}
```
The random draw `Math.random()` is passed in as the parameter `u` (a
value in `[0,1)`); `items[items.length - 1]` on the empty list is
undefined in JS, modelled by `getLast?`. -/
def weightedPick (items : List WheelItem) (u : ℚ) : Option WheelItem :=
  let total := totalWeight items
  let r := u * total
  match weightedPickGo items r with
  | some it => some it
  | none => items.getLast?

/-! Validation operates on raw, untyped JS inputs, so item fields are
modelled with explicit JS value classes. -/

/-- A JS value as seen by the `typeof it.value !== "string"` check. -/
inductive JSVal where
  | str (s : String)
  | nonString
deriving DecidableEq

/-- A JS value as seen by the weight checks: a finite number, one of the
non-finite numbers (`NaN`, `±Infinity`), or a non-number value. -/
inductive JSNum where
  | num (q : ℚ)
  | nan
  | posInf
  | negInf
  | nonNumber
deriving DecidableEq

/-- An unvalidated item as passed to `assertValid`. -/
structure JSItem where
  value : JSVal
  weight : JSNum
deriving DecidableEq

/-- Models `typeof it.value === "string"`. -/
def isStringVal : JSVal → Bool
  | .str _ => true
  | .nonString => false

/-- Models `typeof it.weight === "number"` (NaN and infinities have JS
type "number"). -/
def isNumberType : JSNum → Bool
  | .nonNumber => false
  | _ => true

/-- Models `Number.isFinite(it.weight)`. -/
def isFiniteNumber : JSNum → Bool
  | .num _ => true
  | _ => false

/-- Models `it.weight < 0`. In JS, `NaN < 0` and `Infinity < 0` are
false and `-Infinity < 0` is true; the non-number case is never reached
(short-circuited by the `typeof` check) and is set to `false`. -/
def ltZero : JSNum → Bool
  | .num q => decide (q < 0)
  | .negInf => true
  | _ => false

/-- The finite value of a JS number, used for the total-weight `reduce`.
Only evaluated on weights that already passed the finiteness check, where
it is exact; the junk value `0` for the other cases is never summed. -/
def finitePart : JSNum → ℚ
  | .num q => q
  | _ => 0

/-- Models `items.reduce((s, it) => s + it.weight, 0)` on raw items. -/
def totalQ (items : List JSItem) : ℚ :=
  items.foldl (fun s it => s + finitePart it.weight) 0

/-- The per-item loop of `assertValid`:
```
for (const it of items) {
  if (typeof it.value !== "string") throw new Error("value must be a string");
  if (typeof it.weight !== "number" || !Number.isFinite(it.weight) || it.weight < 0)
    throw new Error("weight must be a finite number >= 0");
}
``` -/
def checkItems : List JSItem → Except String Unit
  | [] => .ok ()
  | it :: rest =>
    if isStringVal it.value = false then .error "value must be a string"
    else if isNumberType it.weight = false ∨ isFiniteNumber it.weight = false ∨
        ltZero it.weight = true then
      .error "weight must be a finite number >= 0"
    else checkItems rest

/-- Source, lines 333-347 (`assertValid`). The `!Array.isArray(items)`
disjunct is vacuous in the typed model (the argument is always a list). -/
def assertValid (items : List JSItem) : Except String Unit :=
  if items.length = 0 then .error "items must be a non-empty array"
  else
    match checkItems items with
    | .error e => .error e
    | .ok () =>
      let total := totalQ items
      if total ≤ 0 then .error "total weight must be > 0" else .ok ()

/-! Easing and interpolation helpers. These are single definitions used
at both rational instantiations (animation timing) and real
instantiations (angles), hence the generic field parameter. -/

/-- Source: `function clamp01(x) { return Math.max(0, Math.min(1, x)); }` -/
def clamp01 {α : Type} [LinearOrderedField α] (x : α) : α :=
  max 0 (min 1 x)

/-- Source: `function easeOutQuint(t) { return 1 - Math.pow(1 - t, 5); }` -/
def easeOutQuint {α : Type} [LinearOrderedField α] (t : α) : α :=
  1 - (1 - t) ^ 5

/-- Source: `function lerp(a, b, t) { return a + (b - a) * t; }` -/
def lerp {α : Type} [LinearOrderedField α] (a b t : α) : α :=
  a + (b - a) * t

/-- The per-frame rotation of the spin animation step (lines 671-686):
```
const t = clamp01((now - startTime) / durationMs);
const eased = easeOutQuint(t);
const rot = startRotation + (targetRotation - startRotation) * eased;
``` -/
def spinRotAt {α : Type} [LinearOrderedField α]
    (startRotation targetRotation startTime durationMs now : α) : α :=
  startRotation + (targetRotation - startRotation) *
    easeOutQuint (clamp01 ((now - startTime) / durationMs))

/-! Rotation-planning geometry (lines 645-661 inside `spin`). Angles are
real numbers; the two `Math.random()` draws are passed as parameters. -/

/-- Source: `const twoPi = Math.PI * 2;` -/
noncomputable def twoPi : ℝ := Real.pi * 2

/-- Source: `const pointerAngle = -Math.PI / 2;` -/
noncomputable def pointerAngle : ℝ := -Real.pi / 2

/-- Source: `const sliceAngle = (Math.PI * 2) / Math.max(1, sliceCount);` -/
noncomputable def sliceAngleOf (sliceCount : ℕ) : ℝ :=
  Real.pi * 2 / (max 1 sliceCount : ℕ)

/-- Source: `const margin = sliceAngle * 0.15;` -/
noncomputable def marginOf (sliceCount : ℕ) : ℝ :=
  sliceAngleOf sliceCount * 0.15

/-- Source:
`const landingAngle = index * sliceAngle + margin + Math.random() * (sliceAngle - margin * 2);`
with the draw `Math.random()` passed as `u`. -/
noncomputable def landingAngleOf (sliceCount index : ℕ) (u : ℝ) : ℝ :=
  index * sliceAngleOf sliceCount + marginOf sliceCount +
    u * (sliceAngleOf sliceCount - marginOf sliceCount * 2)

/-- Truncation toward zero, the rounding JS uses for its `%` operator. -/
noncomputable def jsTrunc (x : ℝ) : ℝ :=
  if 0 ≤ x then (⌊x⌋ : ℝ) else (⌈x⌉ : ℝ)

/-- The JS remainder operator `a % b`: `a - b * trunc(a / b)` (the
result carries the sign of the dividend). -/
noncomputable def jsRem (a b : ℝ) : ℝ :=
  a - b * jsTrunc (a / b)

/-- Source:
```
const raw = pointerAngle - landingAngle - startRotation;
const neededDelta = ((raw % twoPi) + twoPi) % twoPi;
``` -/
noncomputable def neededDeltaOf (landingAngle startRotation : ℝ) : ℝ :=
  jsRem (jsRem (pointerAngle - landingAngle - startRotation) twoPi + twoPi) twoPi

/-- Source: `const minFullRotations = 2;` -/
def minFullRotations : ℤ := 2

/-- Source: `const extraFullRotations = 2 + Math.floor(Math.random() * 4);`
with the draw passed as `u`. -/
noncomputable def extraFullRotationsOf (u : ℝ) : ℤ :=
  2 + ⌊u * 4⌋

/-- Source: `const fullRotations = minFullRotations + extraFullRotations;` -/
noncomputable def fullRotationsOf (u : ℝ) : ℤ :=
  minFullRotations + extraFullRotationsOf u

/-- Source:
```
const delta = fullRotations * twoPi + neededDelta;
const targetRotation = startRotation + delta;
```
with `u1` the landing draw and `u2` the extra-rotations draw. -/
noncomputable def targetRotationOf (sliceCount index : ℕ) (u1 u2 startRotation : ℝ) : ℝ :=
  startRotation + ((fullRotationsOf u2 : ℝ) * twoPi +
    neededDeltaOf (landingAngleOf sliceCount index u1) startRotation)

/-! Slice layout: angle ranges keyed by item value. A JS
`Map<string, AngleRange>` is modelled as a lookup function. -/

/-- Source: `type AngleRange = { start: number; end: number }`; the JS
field `end` is a Lean keyword and is named `stop` here. -/
structure AngleRange where
  start : ℝ
  stop : ℝ

/-- A `Map<string, AngleRange>` as its lookup function. -/
def RangeMap : Type := String → Option AngleRange

/-- JS `map.set(k, v)` for the lookup-function model of `Map`. -/
def mapSet (m : RangeMap) (k : String) (v : AngleRange) : RangeMap :=
  fun q => if q = k then some v else m q

/-- JS `new Map()`. -/
def emptyRangeMap : RangeMap := fun _ => none

/-- Helper: set a whole association list of entries in order. -/
def setAll (m : RangeMap) (l : List (String × AngleRange)) : RangeMap :=
  l.foldl (fun m p => mapSet m p.1 p.2) m

/-- Source, lines 370-378:
```
function buildEqualRanges(list) {
  const n = Math.max(1, list.length);
  const slice = (Math.PI * 2) / n;
  const map = new Map();
  for (let i = 0; i < list.length; i++)
    map.set(keyOf(list[i]), { start: i * slice, end: (i + 1) * slice });
  return map;
}
``` -/
noncomputable def buildEqualRanges (list : List WheelItem) : RangeMap :=
  let n : ℕ := max 1 list.length
  let slice : ℝ := Real.pi * 2 / n
  list.enum.foldl
    (fun map p => mapSet map (keyOf p.2) ⟨p.1 * slice, (p.1 + 1) * slice⟩)
    emptyRangeMap

/-- The loop body of the reflow blend (lines 596-611):
```
const k = keyOf(it);
const a = from.get(k);
const b = to.get(k);
if (!b) continue;
blended.set(k, a ? { start: lerp(a.start, b.start, eased),
                     end: lerp(a.end, b.end, eased) } : b);
``` -/
noncomputable def blendUpd (fromRanges toRanges : RangeMap) (eased : ℝ)
    (blended : RangeMap) (it : WheelItem) : RangeMap :=
  match toRanges (keyOf it) with
  | none => blended
  | some b =>
    match fromRanges (keyOf it) with
    | some a =>
      mapSet blended (keyOf it)
        ⟨lerp a.start b.start eased, lerp a.stop b.stop eased⟩
    | none => mapSet blended (keyOf it) b

/-- One frame of the reflow animation builds `blended` by folding
`blendUpd` over the new item list (`for (const it of next) ...`). -/
noncomputable def blendStep (next : List WheelItem)
    (fromRanges toRanges : RangeMap) (eased : ℝ) : RangeMap :=
  next.foldl (blendUpd fromRanges toRanges eased) emptyRangeMap

/-- Outcome of the reflow effect: either a blend animation from the old
layout to the new one is started, or the active ranges are replaced
immediately with the new equal partition. -/
inductive ReflowAction where
  | animate (fromRanges toRanges : RangeMap)
  | immediate (toRanges : RangeMap)

/-- Whether the outcome is an animation start. -/
def ReflowAction.isAnimate : ReflowAction → Bool
  | .animate _ _ => true
  | .immediate _ => false

/-- The reflow useEffect decision (lines 578-634):
```
const to = buildEqualRanges(next);
if (prev.length !== next.length && prev.length > 1 && next.length > 0) {
  const from = buildEqualRanges(prev);
  ... start the blend animation from `from` to `to` ...
} else {
  activeRangesRef.current = to;
}
``` -/
noncomputable def reflowEffect (prev next : List WheelItem) : ReflowAction :=
  if prev.length ≠ next.length ∧ 1 < prev.length ∧ 0 < next.length then
    .animate (buildEqualRanges prev) (buildEqualRanges next)
  else
    .immediate (buildEqualRanges next)

/-! The spin/removal state machine. Refs and React state become fields
of `WheelState`; the removal useEffect and the pop-animation frame
callback become events of a step function that also emits the values
passed to `onRemove`. Times and durations are rationals (JS wall-clock
floats). -/

/-- The closure state captured by an active pop animation
(`valueToRemove`, `startTime`, `durationMs` in lines 710-713). -/
structure PopAnim where
  value : String
  startTime : ℚ
  durationMs : ℚ
deriving DecidableEq

/-- The plan of a started spin animation (lines 645-669). -/
structure SpinAnim where
  startRotation : ℝ
  targetRotation : ℝ
  durationMs : ℝ
  index : ℕ
  winner : String
  startTime : ℚ

/-- The wheel's mutable state: `spinning` (React state),
`rotationRef`, `selectedIndexRef`, `removingRef`, `lastRemoveReqRef`,
and the active pop animation (the scheduled pop frame chain). -/
structure WheelState where
  spinning : Bool
  rotation : ℝ
  selectedIndex : Option ℕ
  removing : Bool
  lastRemoveReq : Option Bool
  pop : Option PopAnim

/-- Events of the removal machinery: a run of the removal useEffect
(with the `removeSelectedRequested`, `spinning`, `isDisabled` and
`items` values it reads at that moment, plus `performance.now()`), or
one animation frame of the pop step at wall-clock time `now`. -/
inductive REvent where
  | effectRun (removeSelectedRequested spinning isDisabled : Bool)
      (items : List WheelItem) (now : ℚ)
  | popFrame (now : ℚ)

/-- One transition of the removal machinery, returning the next state
and the list of values passed to `onRemove` during the transition.
Mirrors the removal useEffect (lines 695-736):
```
if (!removeSelectedRequested) { lastRemoveReqRef.current = removeSelectedRequested; return; }
if (lastRemoveReqRef.current === true) return;
lastRemoveReqRef.current = true;
if (spinning || isDisabled) return;
if (removingRef.current) return;
const idx = selectedIndexRef.current;
if (idx == null || idx < 0 || idx >= items.length) return;
const valueToRemove = items[idx].value; ... removingRef.current = true; ...
```
and its frame step:
```
const t = clamp01((now - startTime) / durationMs);
if (t < 1) { ...next frame... }
else { removingRef.current = false; selectedIndexRef.current = null;
       onRemove?.(valueToRemove); ... }
```
(`idx < 0` is vacuous for a natural-number index; the drawing calls are
outside the model). -/
def removalStep (s : WheelState) (e : REvent) : WheelState × List String :=
  match e with
  | .effectRun req spinning disabled items now =>
    if req = false then ({ s with lastRemoveReq := some false }, [])
    else if s.lastRemoveReq = some true then (s, [])
    else
      let s1 := { s with lastRemoveReq := some true }
      if spinning || disabled then (s1, [])
      else if s1.removing then (s1, [])
      else
        match s1.selectedIndex with
        | none => (s1, [])
        | some idx =>
          if h : idx < items.length then
            ({ s1 with removing := true, pop := some ⟨(items.get ⟨idx, h⟩).value, now, 520⟩ }, [])
          else (s1, [])
  | .popFrame now =>
    match s.pop with
    | none => (s, [])
    | some p =>
      let t := clamp01 ((now - p.startTime) / p.durationMs)
      if t < 1 then (s, [])
      else
        ({ s with removing := false, selectedIndex := none, pop := none },
          [p.value])

/-- Run a sequence of removal events, concatenating the emitted
`onRemove` values. -/
def runRemoval : WheelState → List REvent → WheelState × List String
  | s, [] => (s, [])
  | s, e :: rest =>
    ((runRemoval (removalStep s e).1 rest).1,
      (removalStep s e).2 ++ (runRemoval (removalStep s e).1 rest).2)

/-- Events allowed strictly inside one pop cycle: any effect run, or a
pop frame that arrives before the pop animation's end time. -/
def midOk (startTime : ℚ) : REvent → Bool
  | .effectRun _ _ _ _ _ => true
  | .popFrame now => decide (now < startTime + 520)

/-- The spin trigger (lines 636-689): guards, winner pick, rotation
plan, and animation start. The four draws `u0` (winner pick), `u1`
(landing), `u2` (extra rotations), `u3` (duration jitter) and
`performance.now()` are parameters. Frame stepping and the completion
callback are modelled separately (`spinRotAt`); the started animation,
if any, is returned:
```
if (spinning || isDisabled) return;
if (items.length === 0) return;
setSpinning(true);
const winner = weightedPick(items);
const index = items.findIndex((it) => it.value === winner.value);
... const targetRotation = startRotation + delta;
const totalRotations = delta / twoPi;
const durationMs = totalRotations * 1300 + 900 + Math.random() * 400;
``` -/
noncomputable def spin (s : WheelState) (isDisabled : Bool)
    (items : List WheelItem) (u0 u1 u2 u3 : ℚ) (now : ℚ) :
    WheelState × Option SpinAnim :=
  if s.spinning || isDisabled then (s, none)
  else if items.length = 0 then (s, none)
  else
    match weightedPick items u0 with
    | none => (s, none)
    | some winner =>
      let index := items.findIdx (fun it => it.value == winner.value)
      let startRotation := s.rotation
      let targetRotation :=
        targetRotationOf items.length index (u1 : ℝ) (u2 : ℝ) startRotation
      let delta := targetRotation - startRotation
      let totalRotations := delta / twoPi
      let durationMs := totalRotations * 1300 + 900 + (u3 : ℝ) * 400
      ({ s with spinning := true },
        some ⟨startRotation, targetRotation, durationMs, index, winner.value, now⟩)

/-! Helper lemmas. -/

lemma totalWeight_foldl (l : List WheelItem) (s : ℚ) :
    l.foldl (fun s it => s + it.weight) s = s + (l.map WheelItem.weight).sum := by
  induction l generalizing s with
  | nil => simp
  | cons it rest ih => simp [ih, add_assoc]

lemma totalWeight_eq (l : List WheelItem) :
    totalWeight l = (l.map WheelItem.weight).sum := by
  simpa [totalWeight] using totalWeight_foldl l 0

lemma weightedPickGo_mem {l : List WheelItem} {r : ℚ} {it : WheelItem}
    (h : weightedPickGo l r = some it) : it ∈ l := by
  induction l generalizing r with
  | nil => simp [weightedPickGo] at h
  | cons x rest ih =>
    rw [weightedPickGo] at h
    split at h
    · simp_all
    · exact List.mem_cons_of_mem _ (ih h)

lemma weightedPickGo_pos {l : List WheelItem} {r : ℚ} {it : WheelItem}
    (hr : 0 < r) (hw : ∀ x ∈ l, 0 ≤ x.weight)
    (h : weightedPickGo l r = some it) : 0 < it.weight := by
  induction l generalizing r with
  | nil => simp [weightedPickGo] at h
  | cons x rest ih =>
    rw [weightedPickGo] at h
    split at h
    · rename_i hle
      obtain rfl : x = it := by simpa using h
      linarith
    · rename_i hgt
      exact ih (by linarith) (fun y hy => hw y (List.mem_cons_of_mem _ hy)) h

lemma weightedPickGo_total {l : List WheelItem} {r : ℚ}
    (hne : l ≠ []) (hr : r ≤ (l.map WheelItem.weight).sum) :
    ∃ it, weightedPickGo l r = some it := by
  induction l generalizing r with
  | nil => exact absurd rfl hne
  | cons x rest ih =>
    rw [weightedPickGo]
    by_cases hle : r - x.weight ≤ 0
    · exact ⟨x, by simp [hle]⟩
    · push_neg at hle
      have hsum : r - x.weight ≤ (rest.map WheelItem.weight).sum := by
        simp only [List.map_cons, List.sum_cons] at hr
        linarith
      have hrest : rest ≠ [] := by
        rintro rfl
        simp at hsum
        linarith
      simpa [not_le.mpr hle, (by linarith : ¬ r - x.weight ≤ 0)] using ih hrest hsum

lemma checkItems_ok_iff (l : List JSItem) :
    checkItems l = .ok () ↔
      ∀ it ∈ l, isStringVal it.value = true ∧ isNumberType it.weight = true ∧
        isFiniteNumber it.weight = true ∧ ltZero it.weight = false := by
  induction l with
  | nil => simp [checkItems]
  | cons it rest ih =>
    rw [checkItems]
    by_cases h1 : isStringVal it.value = false
    · simp [h1]
    · rw [if_neg h1]
      by_cases h2 : isNumberType it.weight = false ∨ isFiniteNumber it.weight = false ∨
          ltZero it.weight = true
      · rw [if_pos h2]
        simp only [Bool.not_eq_false] at h1
        constructor
        · intro h; cases h
        · intro h
          rcases h it (List.mem_cons_self it rest) with ⟨_, hb, hc, hd⟩
          rcases h2 with h2 | h2 | h2 <;> simp_all
      · rw [if_neg h2]
        push_neg at h2
        simp only [Bool.not_eq_false] at h1
        rcases h2 with ⟨h2a, h2c, h2d⟩
        simp only [Bool.not_eq_false] at h2a h2c
        simp only [Bool.not_eq_true] at h2d
        rw [ih]
        constructor
        · intro h y hy
          rcases List.mem_cons.mp hy with rfl | hy
          · exact ⟨h1, h2a, h2c, h2d⟩
          · exact h y hy
        · intro h y hy
          exact h y (List.mem_cons_of_mem _ hy)

lemma checkItems_error {l : List JSItem} {e : String}
    (h : checkItems l = .error e) :
    (e = "value must be a string" ∧ ∃ it ∈ l, isStringVal it.value = false) ∨
    (e = "weight must be a finite number >= 0" ∧
      ∃ it ∈ l, isNumberType it.weight = false ∨ isFiniteNumber it.weight = false ∨
        ltZero it.weight = true) := by
  induction l with
  | nil => simp [checkItems] at h
  | cons it rest ih =>
    rw [checkItems] at h
    split at h
    · left
      refine ⟨by simpa using h.symm, it, List.mem_cons_self it rest, by assumption⟩
    · split at h
      · right
        rename_i hw
        refine ⟨by simpa using h.symm, it, List.mem_cons_self it rest, hw⟩
      · rcases ih h with ⟨he, x, hx, hxp⟩ | ⟨he, x, hx, hxp⟩
        · exact Or.inl ⟨he, x, List.mem_cons_of_mem _ hx, hxp⟩
        · exact Or.inr ⟨he, x, List.mem_cons_of_mem _ hx, hxp⟩

/-- C5: item-list validation (`assertValid`) raises an error if and only
if the list is empty, some value is not a string, some weight is not a
finite number or is negative, or the sum of all weights is at most 0;
each error message names the violated rule, and every list satisfying
all four rules validates without error. -/
theorem assertValid_correct (items : List JSItem) :
    (assertValid items = .ok () ↔
      (items ≠ [] ∧
        (∀ it ∈ items, isStringVal it.value = true) ∧
        (∀ it ∈ items, isNumberType it.weight = true ∧
          isFiniteNumber it.weight = true ∧ ltZero it.weight = false) ∧
        0 < totalQ items)) ∧
    (∀ e, assertValid items = .error e →
      (e = "items must be a non-empty array" ∧ items = []) ∨
      (e = "value must be a string" ∧ ∃ it ∈ items, isStringVal it.value = false) ∨
      (e = "weight must be a finite number >= 0" ∧
        ∃ it ∈ items, isNumberType it.weight = false ∨
          isFiniteNumber it.weight = false ∨ ltZero it.weight = true) ∨
      (e = "total weight must be > 0" ∧ totalQ items ≤ 0)) := by
  constructor
  · rw [assertValid]
    by_cases hlen : items.length = 0
    · rw [if_pos hlen]
      simp [List.length_eq_zero.mp hlen]
    · rw [if_neg hlen]
      have hne : items ≠ [] := fun h => hlen (by simp [h])
      rcases hck : checkItems items with e | u
      · simp only []
        constructor
        · intro h; cases h
        · intro ⟨_, hv, hw, _⟩
          have : checkItems items = .ok () :=
            (checkItems_ok_iff items).mpr fun it hit =>
              ⟨hv it hit, hw it hit⟩
          rw [hck] at this; cases this
      · obtain rfl : u = () := rfl
        simp only []
        by_cases htot : totalQ items ≤ 0
        · rw [if_pos htot]
          constructor
          · intro h; cases h
          · intro ⟨_, _, _, hpos⟩; linarith
        · rw [if_neg htot]
          push_neg at htot
          have hall := (checkItems_ok_iff items).mp hck
          exact iff_of_true rfl
            ⟨hne, fun it hit => (hall it hit).1, fun it hit => (hall it hit).2, htot⟩
  · intro e he
    rw [assertValid] at he
    by_cases hlen : items.length = 0
    · rw [if_pos hlen] at he
      exact Or.inl ⟨by simpa using he.symm, List.length_eq_zero.mp hlen⟩
    · rw [if_neg hlen] at he
      rcases hck : checkItems items with e' | u
      · rw [hck] at he
        obtain rfl : e' = e := by simpa using he
        rcases checkItems_error hck with h | h
        · exact Or.inr (Or.inl h)
        · exact Or.inr (Or.inr (Or.inl h))
      · obtain rfl : u = () := rfl
        rw [hck] at he
        simp only [] at he
        split at he
        · exact Or.inr (Or.inr (Or.inr ⟨by simpa using he.symm, by assumption⟩))
        · cases he

/-- Witness for C5: a concrete well-formed list validates. -/
theorem assertValid_correct_witness :
    assertValid [⟨.str "a", .num 1⟩] = .ok () :=
  (assertValid_correct [⟨.str "a", .num 1⟩]).1.mpr
    ⟨by simp, by simp [isStringVal],
      by norm_num [isNumberType, isFiniteNumber, ltZero],
      by norm_num [totalQ, finitePart]⟩

/-- C6: on every non-empty item list, `weightedPick` returns an element
of the input list; when the subtraction walk exhausts the list without
the remainder dropping to at most 0 the returned element is the last
item (the floating-point fallback), so the function always terminates
with a valid item. -/
theorem weightedPick_mem (items : List WheelItem) (u : ℚ) (h : items ≠ []) :
    ∃ it, weightedPick items u = some it ∧ it ∈ items ∧
      (weightedPickGo items (u * totalWeight items) = none →
        items.getLast? = some it) := by
  rcases hgo : weightedPickGo items (u * totalWeight items) with _ | it
  · refine ⟨items.getLast h, ?_, List.getLast_mem h, fun _ => ?_⟩
    · simp [weightedPick, hgo, List.getLast?_eq_getLast items h]
    · exact List.getLast?_eq_getLast items h
  · exact ⟨it, by simp [weightedPick, hgo], weightedPickGo_mem hgo,
      fun hnone => by cases hnone⟩

/-- Witness for C6: a concrete pick on a one-item list. -/
theorem weightedPick_mem_witness :
    ∃ it, weightedPick [⟨"a", 1⟩] 0 = some it ∧ it ∈ [(⟨"a", 1⟩ : WheelItem)] ∧
      (weightedPickGo [⟨"a", 1⟩] (0 * totalWeight [⟨"a", 1⟩]) = none →
        ([(⟨"a", 1⟩ : WheelItem)]).getLast? = some it) :=
  weightedPick_mem [⟨"a", 1⟩] 0 (by simp)

/-- Counterexample for C1: with the random value r = 0 (which lies in
[0, totalWeight) and which Math.random can produce) the pick on
[{a,0},{b,0},{c,100}] returns the weight-0 item a, not c. -/
theorem weightedPick_zero_weight_cex :
    weightedPick [⟨"a", 0⟩, ⟨"b", 0⟩, ⟨"c", 100⟩] 0 = some ⟨"a", 0⟩ ∧
    (⟨"a", 0⟩ : WheelItem).weight = 0 ∧
    (0 : ℚ) ≤ 0 * totalWeight [⟨"a", 0⟩, ⟨"b", 0⟩, ⟨"c", 100⟩] ∧
    0 * totalWeight [⟨"a", 0⟩, ⟨"b", 0⟩, ⟨"c", 100⟩] <
      totalWeight [⟨"a", 0⟩, ⟨"b", 0⟩, ⟨"c", 100⟩] := by
  refine ⟨?_, rfl, ?_, ?_⟩ <;>
    norm_num [weightedPick, weightedPickGo, totalWeight]

/-- C1 (amended): when all weights are finite and non-negative with
positive total, `weightedPick` never returns a weight-0 item for a
random draw in the open interval (0, totalWeight); in particular for
[{a,0},{b,0},{c,100}] every such draw yields winner c. (The boundary
draw r = 0 is excluded: there the code returns the first item even if
its weight is 0.) -/
theorem weightedPick_pos_weight :
    (∀ (items : List WheelItem) (u : ℚ), (∀ it ∈ items, 0 ≤ it.weight) →
      0 < totalWeight items → 0 < u → u < 1 →
      ∃ it, weightedPick items u = some it ∧ 0 < it.weight) ∧
    (∀ u : ℚ, 0 < u → u < 1 →
      weightedPick [⟨"a", 0⟩, ⟨"b", 0⟩, ⟨"c", 100⟩] u = some ⟨"c", 100⟩) := by
  constructor
  · intro items u hw htot hu hu1
    have hne : items ≠ [] := by
      rintro rfl
      simp [totalWeight] at htot
    have hr : 0 < u * totalWeight items := mul_pos hu htot
    have hrs : u * totalWeight items ≤ (items.map WheelItem.weight).sum := by
      rw [← totalWeight_eq]
      nlinarith
    obtain ⟨it, hit⟩ := weightedPickGo_total hne hrs
    exact ⟨it, by simp [weightedPick, hit],
      weightedPickGo_pos hr hw hit⟩
  · intro u hu hu1
    have htot : totalWeight [⟨"a", 0⟩, ⟨"b", 0⟩, ⟨"c", 100⟩] = 100 := by
      norm_num [totalWeight]
    have h1 : ¬ u * 100 - (0 : ℚ) ≤ 0 := by nlinarith
    have h2 : u * 100 - 0 - 0 - 100 ≤ 0 := by nlinarith
    simp only [weightedPick, htot, weightedPickGo]
    rw [if_neg (by simpa using h1), if_neg (by simpa using h1),
      if_pos (by simpa using h2)]

/-- Witness for C1: the draw u = 1/2 (r = 50) yields winner c. -/
theorem weightedPick_pos_weight_witness :
    (0 : ℚ) < 1/2 ∧ (1/2 : ℚ) < 1 ∧
    weightedPick [⟨"a", 0⟩, ⟨"b", 0⟩, ⟨"c", 100⟩] (1/2) = some ⟨"c", 100⟩ :=
  ⟨by norm_num, by norm_num,
    weightedPick_pos_weight.2 (1/2) (by norm_num) (by norm_num)⟩

/-! Clamping lemmas shared by the animation steps. -/

lemma clamp01_lt_one {α : Type} [LinearOrderedField α] {x : α} (h : x < 1) :
    clamp01 x < 1 :=
  max_lt (by norm_num) (lt_of_le_of_lt (min_le_right _ _) h)

lemma clamp01_eq_one {α : Type} [LinearOrderedField α] {x : α} (h : 1 ≤ x) :
    clamp01 x = 1 := by
  rw [clamp01, min_eq_left h, max_eq_right (by norm_num : (0:α) ≤ 1)]

lemma clamp01_nonneg {α : Type} [LinearOrderedField α] (x : α) :
    0 ≤ clamp01 x := le_max_left _ _

lemma clamp01_le_one {α : Type} [LinearOrderedField α] (x : α) :
    clamp01 x ≤ 1 :=
  max_le (by norm_num) (min_le_left _ _)

lemma clamp01_mono {α : Type} [LinearOrderedField α] {x y : α} (h : x ≤ y) :
    clamp01 x ≤ clamp01 y :=
  max_le_max le_rfl (min_le_min le_rfl h)

/-! Lemmas about single removal-machinery transitions. -/

lemma removalStep_accept (s : WheelState) (items : List WheelItem) (idx : ℕ)
    (now : ℚ) (hrem : s.removing = false) (hlast : s.lastRemoveReq ≠ some true)
    (hsel : s.selectedIndex = some idx) (hidx : idx < items.length) :
    removalStep s (.effectRun true false false items now) =
      ({ s with lastRemoveReq := some true, removing := true, pop := some ⟨(items.get ⟨idx, hidx⟩).value, now, 520⟩ }, []) := by
  simp [removalStep, hrem, hsel, hlast, hidx]

lemma removalStep_mid (s : WheelState) (p : PopAnim) (e : REvent)
    (hrem : s.removing = true) (hpop : s.pop = some p)
    (hdur : p.durationMs = 520) (hmid : midOk p.startTime e = true) :
    (removalStep s e).2 = [] ∧ (removalStep s e).1.removing = true ∧
      (removalStep s e).1.pop = some p := by
  cases e with
  | effectRun req sp dis its now =>
    cases req
    · simp [removalStep, hrem, hpop]
    · by_cases h : s.lastRemoveReq = some true
      · simp [removalStep, h, hrem, hpop]
      · by_cases h2 : (sp || dis) = true
        · simp [removalStep, h, h2, hrem, hpop]
        · simp [removalStep, h, h2, hrem, hpop]
  | popFrame now =>
    have hlt : now < p.startTime + 520 := of_decide_eq_true hmid
    have ht : clamp01 ((now - p.startTime) / p.durationMs) < 1 := by
      apply clamp01_lt_one
      rw [hdur, div_lt_one (by norm_num : (0:ℚ) < 520)]
      linarith
    simp [removalStep, hpop, ht, hrem]

lemma removalStep_complete (s : WheelState) (p : PopAnim) (now : ℚ)
    (hpop : s.pop = some p) (hdur : p.durationMs = 520)
    (hge : p.startTime + 520 ≤ now) :
    removalStep s (.popFrame now) =
      ({ s with removing := false, selectedIndex := none, pop := none }, [p.value]) := by
  have ht : ¬ clamp01 ((now - p.startTime) / p.durationMs) < 1 := by
    rw [hdur, clamp01_eq_one]
    · exact lt_irrefl 1
    · rw [le_div_iff₀ (by norm_num : (0:ℚ) < 520)]
      linarith
  simp [removalStep, hpop, ht]

lemma runRemoval_cons (s : WheelState) (e : REvent) (rest : List REvent) :
    runRemoval s (e :: rest) =
      ((runRemoval (removalStep s e).1 rest).1,
        (removalStep s e).2 ++ (runRemoval (removalStep s e).1 rest).2) := rfl

lemma runRemoval_append (l1 l2 : List REvent) : ∀ s : WheelState,
    runRemoval s (l1 ++ l2) =
      ((runRemoval (runRemoval s l1).1 l2).1,
        (runRemoval s l1).2 ++ (runRemoval (runRemoval s l1).1 l2).2) := by
  induction l1 with
  | nil => intro s; simp [runRemoval]
  | cons e rest ih =>
    intro s
    simp only [List.cons_append, runRemoval_cons, ih]
    simp [List.append_assoc]

lemma runRemoval_mids (mids : List REvent) : ∀ (s : WheelState) (p : PopAnim),
    s.removing = true → s.pop = some p → p.durationMs = 520 →
    (∀ e ∈ mids, midOk p.startTime e = true) →
    (runRemoval s mids).2 = [] ∧ (runRemoval s mids).1.removing = true ∧
      (runRemoval s mids).1.pop = some p := by
  induction mids with
  | nil => intro s p h1 h2 _ _; exact ⟨rfl, h1, h2⟩
  | cons e rest ih =>
    intro s p h1 h2 h3 h4
    obtain ⟨hout, hrem, hpop⟩ :=
      removalStep_mid s p e h1 h2 h3 (h4 e (List.mem_cons_self e rest))
    obtain ⟨hout', hrem', hpop'⟩ := ih (removalStep s e).1 p hrem hpop h3
      (fun x hx => h4 x (List.mem_cons_of_mem _ hx))
    rw [runRemoval_cons]
    exact ⟨by rw [hout, hout']; rfl, hrem', hpop'⟩

/-- C3: one accepted pop-removal cycle. When a rising edge of the
removal-request flag is accepted with a valid recorded selection, no
`onRemove` fires before the pop animation completes (whatever mixture of
further effect runs and pre-completion frames arrives in between — in
particular confirmation edges during an in-progress removal are
ignored); at the completing frame `onRemove` is invoked with the
recorded value exactly once and the selection record is cleared, so
`onRemove` can never fire twice for one cycle. -/
theorem removal_cycle_once (s0 : WheelState) (items : List WheelItem)
    (idx : ℕ) (now0 nowF : ℚ) (mids : List REvent)
    (hrem : s0.removing = false) (hlast : s0.lastRemoveReq ≠ some true)
    (hsel : s0.selectedIndex = some idx) (hidx : idx < items.length)
    (hmids : ∀ e ∈ mids, midOk now0 e = true) (hF : now0 + 520 ≤ nowF) :
    (runRemoval s0 (.effectRun true false false items now0 :: mids)).2 = [] ∧
    (runRemoval s0
      (.effectRun true false false items now0 :: (mids ++ [.popFrame nowF]))).2
      = [(items.get ⟨idx, hidx⟩).value] ∧
    (runRemoval s0
      (.effectRun true false false items now0 ::
        (mids ++ [.popFrame nowF]))).1.selectedIndex = none ∧
    (runRemoval s0
      (.effectRun true false false items now0 ::
        (mids ++ [.popFrame nowF]))).1.removing = false := by
  have haccept := removalStep_accept s0 items idx now0 hrem hlast hsel hidx
  set p : PopAnim := ⟨(items.get ⟨idx, hidx⟩).value, now0, 520⟩ with hp
  set s1 : WheelState := { s0 with lastRemoveReq := some true, removing := true, pop := some p } with hs1
  obtain ⟨hmout, hmrem, hmpop⟩ :=
    runRemoval_mids mids s1 p rfl rfl rfl hmids
  have hcomp := removalStep_complete (runRemoval s1 mids).1 p nowF hmpop rfl hF
  refine ⟨?_, ?_, ?_, ?_⟩
  · rw [runRemoval_cons, haccept]
    simpa using hmout
  · rw [runRemoval_cons, haccept]
    simp only [runRemoval_append]
    rw [hmout]
    simp [runRemoval_cons, hcomp, runRemoval]
  · rw [runRemoval_cons, haccept]
    simp only [runRemoval_append]
    simp [runRemoval_cons, hcomp, runRemoval]
  · rw [runRemoval_cons, haccept]
    simp only [runRemoval_append]
    simp [runRemoval_cons, hcomp, runRemoval]

/-- Witness for C3: a concrete accepted cycle with one early frame and
two ignored confirmation edges during the removal, completing at time
600. -/
theorem removal_cycle_once_witness :
    (⟨false, 0, some 0, false, none, none⟩ : WheelState).removing = false ∧
    (runRemoval ⟨false, 0, some 0, false, none, none⟩
      (.effectRun true false false [⟨"a", 1⟩] 0 ::
        ([.popFrame 100, .effectRun false false false [] 200,
          .effectRun true true false [] 300] ++ [.popFrame 600]))).2
      = [((([⟨"a", 1⟩] : List WheelItem)).get ⟨0, by norm_num⟩).value] :=
  ⟨rfl,
    (removal_cycle_once ⟨false, 0, some 0, false, none, none⟩ [⟨"a", 1⟩] 0 0 600
      [.popFrame 100, .effectRun false false false [] 200,
        .effectRun true true false [] 300]
      rfl (by simp) rfl (by norm_num)
      (by intro e he; fin_cases he <;> norm_num [midOk])
      (by norm_num)).2.1⟩

/-- C9: when `isDisabled` is true, requesting a spin is a no-op (state
unchanged, no animation started), and a run of the removal effect — in
particular a rising edge of the removal-request flag — starts no pop
animation, leaves the selection record, the removal flag, the rotation
and the spinning flag unchanged, and emits no `onRemove` call. -/
theorem disabled_noop (s : WheelState) (items : List WheelItem)
    (u0 u1 u2 u3 now : ℚ) (req spinning : Bool) (items2 : List WheelItem)
    (now2 : ℚ) :
    spin s true items u0 u1 u2 u3 now = (s, none) ∧
    (removalStep s (.effectRun req spinning true items2 now2)).1.selectedIndex
      = s.selectedIndex ∧
    (removalStep s (.effectRun req spinning true items2 now2)).1.removing
      = s.removing ∧
    (removalStep s (.effectRun req spinning true items2 now2)).1.pop = s.pop ∧
    (removalStep s (.effectRun req spinning true items2 now2)).1.rotation
      = s.rotation ∧
    (removalStep s (.effectRun req spinning true items2 now2)).1.spinning
      = s.spinning ∧
    (removalStep s (.effectRun req spinning true items2 now2)).2 = [] := by
  refine ⟨by simp [spin], ?_⟩
  cases req <;> by_cases h : s.lastRemoveReq = some true <;>
    simp [removalStep, h]

/-! Easing lemmas for the spin frame step. -/

lemma easeOutQuint_mono {a b : ℝ} (h : a ≤ b) :
    easeOutQuint a ≤ easeOutQuint b := by
  have hpow : (1 - b) ^ 5 ≤ (1 - a) ^ 5 :=
    ((Odd.strictMono_pow (by decide : Odd 5)).monotone
      (by linarith : (1 : ℝ) - b ≤ 1 - a) : _)
  simp only [easeOutQuint]
  linarith

lemma easeOutQuint_bounds {t : ℝ} (h0 : 0 ≤ t) (h1 : t ≤ 1) :
    0 ≤ easeOutQuint t ∧ easeOutQuint t ≤ 1 := by
  have hp0 : (0:ℝ) ≤ (1 - t) ^ 5 := pow_nonneg (by linarith) 5
  have hp1 : (1 - t) ^ 5 ≤ 1 := pow_le_one₀ (by linarith) (by linarith)
  simp only [easeOutQuint]
  constructor <;> linarith

/-- C10: during a spin animation the per-frame rotation always lies
between startRotation and targetRotation inclusive, is non-decreasing in
frame time, and equals targetRotation exactly for every frame at or past
startTime + durationMs; the clamped progress stays in [0,1] and the
quintic ease-out is monotone with ease(0)=0 and ease(1)=1. -/
theorem spin_step_invariants (startRotation targetRotation startTime durationMs : ℝ)
    (hdur : 0 < durationMs) (hle : startRotation ≤ targetRotation) :
    (∀ now : ℝ,
      startRotation ≤ spinRotAt startRotation targetRotation startTime durationMs now ∧
      spinRotAt startRotation targetRotation startTime durationMs now ≤ targetRotation) ∧
    (∀ n1 n2 : ℝ, n1 ≤ n2 →
      spinRotAt startRotation targetRotation startTime durationMs n1 ≤
        spinRotAt startRotation targetRotation startTime durationMs n2) ∧
    (∀ now : ℝ, startTime + durationMs ≤ now →
      spinRotAt startRotation targetRotation startTime durationMs now = targetRotation) ∧
    easeOutQuint (0 : ℝ) = 0 ∧ easeOutQuint (1 : ℝ) = 1 ∧
    (∀ a b : ℝ, a ≤ b → easeOutQuint a ≤ easeOutQuint b) ∧
    (∀ x : ℝ, 0 ≤ clamp01 x ∧ clamp01 x ≤ 1) := by
  refine ⟨?_, ?_, ?_, by norm_num [easeOutQuint], by norm_num [easeOutQuint],
    fun a b h => easeOutQuint_mono h, fun x => ⟨clamp01_nonneg x, clamp01_le_one x⟩⟩
  · intro now
    obtain ⟨he0, he1⟩ := easeOutQuint_bounds
      (clamp01_nonneg ((now - startTime) / durationMs))
      (clamp01_le_one ((now - startTime) / durationMs))
    rw [spinRotAt]
    constructor <;> nlinarith
  · intro n1 n2 h
    have hdiv : (n1 - startTime) / durationMs ≤ (n2 - startTime) / durationMs :=
      (div_le_div_iff_of_pos_right hdur).mpr (by linarith)
    have hee := easeOutQuint_mono (clamp01_mono hdiv)
    rw [spinRotAt, spinRotAt]
    nlinarith
  · intro now hnow
    have h1 : (1:ℝ) ≤ (now - startTime) / durationMs := by
      rw [le_div_iff₀ hdur]
      linarith
    rw [spinRotAt, clamp01_eq_one h1]
    norm_num [easeOutQuint]

/-- Witness for C10: at duration 1 a frame at time 2 (past the end)
gives exactly the target rotation. -/
theorem spin_step_invariants_witness :
    (0:ℝ) < 1 ∧ (0:ℝ) ≤ 1 ∧ spinRotAt (0:ℝ) 1 0 1 2 = 1 :=
  ⟨by norm_num, by norm_num,
    (spin_step_invariants 0 1 0 1 (by norm_num) (by norm_num)).2.2.1 2 (by norm_num)⟩

/-- Counterexample for C4: removing one item from a 2-item list (new
count 1, which does not exceed 1) still starts the reflow animation:
the code only requires the new count to be positive, not greater
than 1. -/
theorem reflow_trigger_cex :
    (reflowEffect [⟨"a", 1⟩, ⟨"b", 1⟩] [⟨"c", 1⟩]).isAnimate = true ∧
    ¬ (1 < ([(⟨"c", 1⟩ : WheelItem)] : List WheelItem).length) := by
  constructor
  · rw [reflowEffect, if_pos (by norm_num)]
    rfl
  · norm_num

/-- C4 (amended): the reflow (blend) animation is started if and only
if the item count changed, the old count exceeds 1, and the new count is
positive (at least 1 — not necessarily greater than 1 as originally
claimed); in every other case the layout is replaced immediately with
the new equal partition. -/
theorem reflow_trigger_iff (prev next : List WheelItem) :
    ((reflowEffect prev next).isAnimate = true ↔
      (prev.length ≠ next.length ∧ 1 < prev.length ∧ 0 < next.length)) ∧
    ((reflowEffect prev next).isAnimate = false →
      reflowEffect prev next = .immediate (buildEqualRanges next)) ∧
    ((reflowEffect prev next).isAnimate = true →
      reflowEffect prev next =
        .animate (buildEqualRanges prev) (buildEqualRanges next)) := by
  by_cases h : prev.length ≠ next.length ∧ 1 < prev.length ∧ 0 < next.length
  · rw [reflowEffect, if_pos h]
    simp [ReflowAction.isAnimate, h]
  · rw [reflowEffect, if_neg h]
    simp [ReflowAction.isAnimate, h]

/-- Witness for C4: the concrete 2-to-1 removal satisfies the amended
trigger condition. -/
theorem reflow_trigger_iff_witness :
    (reflowEffect [⟨"a", 1⟩, ⟨"b", 1⟩] [⟨"c", 1⟩]).isAnimate = true :=
  (reflow_trigger_iff [⟨"a", 1⟩, ⟨"b", 1⟩] [⟨"c", 1⟩]).1.mpr (by norm_num)

/-! Lookup lemmas for the function-map model of `Map<string, AngleRange>`. -/

lemma mapSet_self (m : RangeMap) (k : String) (v : AngleRange) :
    mapSet m k v k = some v := by
  simp [mapSet]

lemma mapSet_other (m : RangeMap) (k q : String) (v : AngleRange) (h : q ≠ k) :
    mapSet m k v q = m q := by
  simp [mapSet, h]

lemma setAll_cons (m : RangeMap) (p : String × AngleRange)
    (l : List (String × AngleRange)) :
    setAll m (p :: l) = setAll (mapSet m p.1 p.2) l := rfl

lemma setAll_apply_not_mem (l : List (String × AngleRange)) :
    ∀ (m : RangeMap) (k : String), (∀ p ∈ l, p.1 ≠ k) → setAll m l k = m k := by
  induction l with
  | nil => intro m k _; rfl
  | cons p rest ih =>
    intro m k h
    rw [setAll_cons, ih _ k (fun q hq => h q (List.mem_cons_of_mem _ hq)),
      mapSet_other _ _ _ _ (fun hk => h p (List.mem_cons_self p rest) hk.symm)]

lemma setAll_apply_mem (l : List (String × AngleRange)) :
    ∀ (m : RangeMap) (k : String) (v : AngleRange),
      (l.map Prod.fst).Nodup → (k, v) ∈ l → setAll m l k = some v := by
  induction l with
  | nil => intro m k v _ hmem; cases hmem
  | cons p rest ih =>
    intro m k v hnd hmem
    rw [List.map_cons, List.nodup_cons] at hnd
    rcases List.mem_cons.mp hmem with rfl | hmem
    · rw [setAll_cons]
      rw [setAll_apply_not_mem rest _ k
        (fun q hq hqk => hnd.1 (by
          simp only [← hqk]
          exact List.mem_map_of_mem Prod.fst hq))]
      exact mapSet_self m k v
    · exact setAll_cons m p rest ▸ ih _ k v hnd.2 hmem

lemma buildEqualRanges_eq_setAll (list : List WheelItem) :
    buildEqualRanges list = setAll emptyRangeMap
      (list.enum.map (fun p => (keyOf p.2,
        (⟨p.1 * (Real.pi * 2 / (max 1 list.length : ℕ)),
          (p.1 + 1) * (Real.pi * 2 / (max 1 list.length : ℕ))⟩ : AngleRange)))) := by
  simp only [buildEqualRanges, setAll, List.foldl_map]

lemma buildEqualRanges_apply (list : List WheelItem)
    (hne : list ≠ []) (hnd : (list.map keyOf).Nodup)
    (i : ℕ) (hi : i < list.length) :
    buildEqualRanges list (keyOf (list.get ⟨i, hi⟩)) =
      some ⟨i * (Real.pi * 2 / list.length),
        (i + 1) * (Real.pi * 2 / list.length)⟩ := by
  have hmax : (max 1 list.length : ℕ) = list.length :=
    Nat.max_eq_right (List.length_pos.mpr hne)
  rw [buildEqualRanges_eq_setAll, hmax]
  apply setAll_apply_mem
  · have h1 : (list.enum.map (fun p => (keyOf p.2,
        (⟨p.1 * (Real.pi * 2 / list.length),
          (p.1 + 1) * (Real.pi * 2 / list.length)⟩ : AngleRange)))).map Prod.fst
        = list.map keyOf := by
      rw [List.map_map]
      have h2 : (Prod.fst ∘ (fun p : ℕ × WheelItem => (keyOf p.2,
          (⟨p.1 * (Real.pi * 2 / list.length),
            (p.1 + 1) * (Real.pi * 2 / list.length)⟩ : AngleRange))))
          = (keyOf ∘ Prod.snd) := rfl
      rw [h2, ← List.map_map, List.enum_map_snd]
    rw [h1]
    exact hnd
  · have hlen : i < (list.enum.map (fun p => (keyOf p.2,
        (⟨p.1 * (Real.pi * 2 / list.length),
          (p.1 + 1) * (Real.pi * 2 / list.length)⟩ : AngleRange)))).length := by
      rw [List.length_map, List.enum_length]
      exact hi
    have hget : (list.enum.map (fun p => (keyOf p.2,
        (⟨p.1 * (Real.pi * 2 / list.length),
          (p.1 + 1) * (Real.pi * 2 / list.length)⟩ : AngleRange))))[i]
        = (keyOf (list.get ⟨i, hi⟩),
          (⟨i * (Real.pi * 2 / list.length),
            (i + 1) * (Real.pi * 2 / list.length)⟩ : AngleRange)) := by
      rw [List.getElem_map, List.getElem_enum]
      rfl
    exact hget ▸ List.getElem_mem _


/-- C7: for a non-empty item list with pairwise-distinct values, the
equal-partition layout assigns item i the range
[i*(2*pi/N), (i+1)*(2*pi/N)); within each assigned range the start is
strictly below the end, consecutive ranges share their boundary (so the
boundary sequence is strictly increasing in index order), and the widths
of all N ranges sum exactly to 2*pi. -/
theorem buildEqualRanges_spec (list : List WheelItem)
    (hne : list ≠ []) (hnd : (list.map keyOf).Nodup) :
    (∀ i (hi : i < list.length),
      buildEqualRanges list (keyOf (list.get ⟨i, hi⟩)) =
        some ⟨i * (Real.pi * 2 / list.length),
          (i + 1) * (Real.pi * 2 / list.length)⟩) ∧
    (∀ i (hi : i < list.length),
      ((buildEqualRanges list (keyOf (list.get ⟨i, hi⟩))).getD ⟨0, 0⟩).start <
        ((buildEqualRanges list (keyOf (list.get ⟨i, hi⟩))).getD ⟨0, 0⟩).stop) ∧
    (∀ i (hi : i + 1 < list.length),
      ((buildEqualRanges list
        (keyOf (list.get ⟨i, Nat.lt_of_succ_lt hi⟩))).getD ⟨0, 0⟩).stop =
      ((buildEqualRanges list (keyOf (list.get ⟨i + 1, hi⟩))).getD ⟨0, 0⟩).start) ∧
    (∑ i : Fin list.length,
      (((buildEqualRanges list (keyOf (list.get i))).getD ⟨0, 0⟩).stop -
        ((buildEqualRanges list (keyOf (list.get i))).getD ⟨0, 0⟩).start)
      = Real.pi * 2) := by
  have hN : 0 < list.length := List.length_pos.mpr hne
  have hNR : (0:ℝ) < (list.length : ℝ) := by exact_mod_cast hN
  have hw : 0 < Real.pi * 2 / (list.length : ℝ) :=
    div_pos (by positivity) hNR
  refine ⟨buildEqualRanges_apply list hne hnd, ?_, ?_, ?_⟩
  · intro i hi
    rw [buildEqualRanges_apply list hne hnd i hi]
    simp only [Option.getD_some]
    nlinarith [hw]
  · intro i hi
    rw [buildEqualRanges_apply list hne hnd i (Nat.lt_of_succ_lt hi),
      buildEqualRanges_apply list hne hnd (i + 1) hi]
    simp only [Option.getD_some]
    push_cast
    ring
  · have hterm : ∀ i : Fin list.length,
        (((buildEqualRanges list (keyOf (list.get i))).getD ⟨0, 0⟩).stop -
          ((buildEqualRanges list (keyOf (list.get i))).getD ⟨0, 0⟩).start)
        = Real.pi * 2 / (list.length : ℝ) := by
      intro i
      rw [buildEqualRanges_apply list hne hnd i.1 i.2]
      simp only [Option.getD_some]
      ring
    rw [Finset.sum_congr rfl (fun i _ => hterm i), Finset.sum_const,
      Finset.card_univ, Fintype.card_fin, nsmul_eq_mul]
    field_simp

/-- Witness for C7: a concrete two-item list with distinct values. -/
theorem buildEqualRanges_spec_witness :
    ([(⟨"a", 1⟩ : WheelItem), ⟨"b", 2⟩] ≠ []) ∧
    (([(⟨"a", 1⟩ : WheelItem), ⟨"b", 2⟩].map keyOf).Nodup) ∧
    (∀ i (hi : i < ([(⟨"a", 1⟩ : WheelItem), ⟨"b", 2⟩] : List WheelItem).length),
      buildEqualRanges [⟨"a", 1⟩, ⟨"b", 2⟩]
          (keyOf (([(⟨"a", 1⟩ : WheelItem), ⟨"b", 2⟩]).get ⟨i, hi⟩)) =
        some ⟨i * (Real.pi * 2 /
            ([(⟨"a", 1⟩ : WheelItem), ⟨"b", 2⟩] : List WheelItem).length),
          (i + 1) * (Real.pi * 2 /
            ([(⟨"a", 1⟩ : WheelItem), ⟨"b", 2⟩] : List WheelItem).length)⟩) :=
  ⟨by simp, by simp [keyOf], (buildEqualRanges_spec [⟨"a", 1⟩, ⟨"b", 2⟩]
    (by simp) (by simp [keyOf])).1⟩

/-! Lookup lemmas for one frame of the reflow blend. -/

lemma blendFold_not_mem (l : List WheelItem) (fromRanges toRanges : RangeMap)
    (eased : ℝ) : ∀ (acc : RangeMap) (k : String), (∀ it ∈ l, keyOf it ≠ k) →
    (l.foldl (blendUpd fromRanges toRanges eased) acc) k = acc k := by
  induction l with
  | nil => intro acc k _; rfl
  | cons it rest ih =>
    intro acc k h
    rw [List.foldl_cons, ih _ k (fun x hx => h x (List.mem_cons_of_mem _ hx))]
    have hne : k ≠ keyOf it := fun hk => h it (List.mem_cons_self it rest) hk.symm
    rcases hT : toRanges (keyOf it) with _ | b
    · simp [blendUpd, hT]
    · rcases hF : fromRanges (keyOf it) with _ | a <;>
        simp [blendUpd, hT, hF, mapSet_other _ _ _ _ hne]

lemma blendFold_mem (l : List WheelItem) (fromRanges toRanges : RangeMap)
    (eased : ℝ) : ∀ (acc : RangeMap) (k : String) (b : AngleRange),
    (∃ it ∈ l, keyOf it = k) → toRanges k = some b →
    (l.foldl (blendUpd fromRanges toRanges eased) acc) k =
      some (match fromRanges k with
        | some a => ⟨lerp a.start b.start eased, lerp a.stop b.stop eased⟩
        | none => b) := by
  induction l with
  | nil => intro acc k b hex _; rcases hex with ⟨x, hx, _⟩; cases hx
  | cons it rest ih =>
    intro acc k b hex hb
    rw [List.foldl_cons]
    by_cases hrest : ∃ x ∈ rest, keyOf x = k
    · exact ih _ k b hrest hb
    · have hit : keyOf it = k := by
        rcases hex with ⟨x, hx, hxk⟩
        rcases List.mem_cons.mp hx with rfl | hx
        · exact hxk
        · exact absurd ⟨x, hx, hxk⟩ hrest
      rw [blendFold_not_mem rest fromRanges toRanges eased _ k
        (fun x hx hxk => hrest ⟨x, hx, hxk⟩)]
      rcases hF : fromRanges k with _ | a <;>
        simp [blendUpd, hit, hb, hF, mapSet_self]

/-- C8: one frame of the reflow blend, for a key drawn from the new item
list (in the component, the `to` layout is always built from that list,
so its keys are exactly the new list's keys). At eased parameter 0 the
blended range equals the `from` range whenever the key is present in
both layouts; at eased parameter 1 it equals the `to` range (exactly, in
the real-number model); and for a key present only in `to` the blended
range is `to`'s range unchanged at every parameter value. -/
theorem blend_endpoints (next : List WheelItem)
    (fromRanges toRanges : RangeMap) (k : String) (b : AngleRange)
    (hk : ∃ it ∈ next, keyOf it = k) (hb : toRanges k = some b) :
    (∀ a, fromRanges k = some a →
      blendStep next fromRanges toRanges 0 k = some a ∧
      blendStep next fromRanges toRanges 1 k = some b) ∧
    (fromRanges k = none →
      ∀ t : ℝ, blendStep next fromRanges toRanges t k = some b) := by
  constructor
  · intro a ha
    constructor
    · rw [blendStep, blendFold_mem next fromRanges toRanges 0 emptyRangeMap k b hk hb]
      simp only [ha]
      have e1 : lerp a.start b.start (0:ℝ) = a.start := by rw [lerp]; ring
      have e2 : lerp a.stop b.stop (0:ℝ) = a.stop := by rw [lerp]; ring
      rw [e1, e2]
    · rw [blendStep, blendFold_mem next fromRanges toRanges 1 emptyRangeMap k b hk hb]
      simp only [ha]
      have e1 : lerp a.start b.start (1:ℝ) = b.start := by rw [lerp]; ring
      have e2 : lerp a.stop b.stop (1:ℝ) = b.stop := by rw [lerp]; ring
      rw [e1, e2]
  · intro h0 t
    rw [blendStep, blendFold_mem next fromRanges toRanges t emptyRangeMap k b hk hb]
    simp only [h0]

/-- Witness for C8: a key "b" present only in the `to` layout keeps its
`to` range at parameter 1/2. -/
theorem blend_endpoints_witness :
    (∃ it ∈ [(⟨"a", 1⟩ : WheelItem), ⟨"b", 1⟩], keyOf it = "b") ∧
    ((fun q => if q = "b" then some (⟨4, 5⟩ : AngleRange) else none) : RangeMap) "b"
      = some ⟨4, 5⟩ ∧
    blendStep [⟨"a", 1⟩, ⟨"b", 1⟩] (fun _ => none)
      (fun q => if q = "b" then some (⟨4, 5⟩ : AngleRange) else none) (1/2) "b"
      = some ⟨4, 5⟩ :=
  ⟨⟨⟨"b", 1⟩, by simp, rfl⟩, by simp,
    (blend_endpoints [⟨"a", 1⟩, ⟨"b", 1⟩] (fun _ => none)
      (fun q => if q = "b" then some (⟨4, 5⟩ : AngleRange) else none) "b" ⟨4, 5⟩
      ⟨⟨"b", 1⟩, by simp, rfl⟩ (by simp)).2 rfl (1/2)⟩

/-! Arithmetic lemmas for the JS remainder and the rotation plan. -/

lemma jsRem_sub_int (a b : ℝ) : ∃ m : ℤ, jsRem a b = a - b * m := by
  by_cases h : 0 ≤ a / b
  · exact ⟨⌊a / b⌋, by rw [jsRem, jsTrunc, if_pos h]⟩
  · exact ⟨⌈a / b⌉, by rw [jsRem, jsTrunc, if_neg h]⟩

lemma jsRem_nonneg_lt {a b : ℝ} (hb : 0 < b) (ha : 0 ≤ a) :
    0 ≤ jsRem a b ∧ jsRem a b < b := by
  have hq : 0 ≤ a / b := div_nonneg ha hb.le
  rw [jsRem, jsTrunc, if_pos hq]
  have h1 : (⌊a / b⌋ : ℝ) ≤ a / b := Int.floor_le _
  have h2 : a / b < ⌊a / b⌋ + 1 := Int.lt_floor_add_one _
  have hab : b * (a / b) = a := by field_simp
  constructor <;> nlinarith

lemma jsRem_neg_bounds {a b : ℝ} (hb : 0 < b) (ha : a < 0) :
    -b < jsRem a b ∧ jsRem a b ≤ 0 := by
  have hq : ¬ 0 ≤ a / b := not_le.mpr (div_neg_of_neg_of_pos ha hb)
  rw [jsRem, jsTrunc, if_neg hq]
  have h1 : a / b ≤ (⌈a / b⌉ : ℝ) := Int.le_ceil _
  have h2 : (⌈a / b⌉ : ℝ) < a / b + 1 := Int.ceil_lt_add_one _
  have hab : b * (a / b) = a := by field_simp
  constructor <;> nlinarith

lemma twoPi_pos : (0:ℝ) < twoPi := by
  rw [twoPi]
  positivity

lemma neededDeltaOf_bounds (landing start : ℝ) :
    0 ≤ neededDeltaOf landing start ∧ neededDeltaOf landing start < twoPi ∧
    ∃ m : ℤ, neededDeltaOf landing start =
      (pointerAngle - landing - start) + twoPi * m := by
  have h2pi := twoPi_pos
  have hX : 0 ≤ jsRem (pointerAngle - landing - start) twoPi + twoPi := by
    by_cases h : 0 ≤ pointerAngle - landing - start
    · have := (jsRem_nonneg_lt h2pi h).1
      linarith
    · push_neg at h
      have := (jsRem_neg_bounds h2pi h).1
      linarith
  obtain ⟨hn0, hnlt⟩ := jsRem_nonneg_lt h2pi hX
  obtain ⟨m1, hm1⟩ := jsRem_sub_int (pointerAngle - landing - start) twoPi
  obtain ⟨m2, hm2⟩ :=
    jsRem_sub_int (jsRem (pointerAngle - landing - start) twoPi + twoPi) twoPi
  refine ⟨hn0, hnlt, ⟨1 - m1 - m2, ?_⟩⟩
  rw [neededDeltaOf, hm2, hm1]
  push_cast
  ring

lemma fullRotationsOf_range {u : ℝ} (h0 : 0 ≤ u) (h1 : u < 1) :
    4 ≤ fullRotationsOf u ∧ fullRotationsOf u ≤ 7 := by
  have hf0 : 0 ≤ ⌊u * 4⌋ := Int.floor_nonneg.mpr (by nlinarith)
  have hf3 : ⌊u * 4⌋ ≤ 3 := by
    have h4 : ⌊u * 4⌋ < 4 := Int.floor_lt.mpr (by push_cast; nlinarith)
    omega
  rw [fullRotationsOf, extraFullRotationsOf, minFullRotations]
  omega

lemma sliceAngleOf_pos (n : ℕ) : 0 < sliceAngleOf n := by
  rw [sliceAngleOf]
  apply div_pos (by positivity)
  exact_mod_cast Nat.lt_of_lt_of_le Nat.zero_lt_one (le_max_left 1 n)

/-- C2: the planned spin always satisfies
targetRotation ≥ currentRotation + 4·2π, with the total number of full
extra turns an integer in [4, 7]; the final rotation places the drawn
landing angle at the pointer angle −π/2 modulo 2π; and the landing angle
lies inside the chosen slice inset by 15% of the slice width (the
margin) on each side. -/
theorem spin_plan_correct (n index : ℕ) (u1 u2 currentRotation : ℝ)
    (hu1 : 0 ≤ u1) (hu1' : u1 < 1) (hu2 : 0 ≤ u2) (hu2' : u2 < 1) :
    (4 ≤ fullRotationsOf u2 ∧ fullRotationsOf u2 ≤ 7) ∧
    currentRotation + 4 * twoPi ≤ targetRotationOf n index u1 u2 currentRotation ∧
    (∃ m : ℤ, landingAngleOf n index u1 +
      targetRotationOf n index u1 u2 currentRotation = pointerAngle + m * twoPi) ∧
    (index * sliceAngleOf n + marginOf n ≤ landingAngleOf n index u1 ∧
      landingAngleOf n index u1 < (index + 1) * sliceAngleOf n - marginOf n) := by
  obtain ⟨hfr4, hfr7⟩ := fullRotationsOf_range hu2 hu2'
  obtain ⟨hn0, hnlt, m, hm⟩ :=
    neededDeltaOf_bounds (landingAngleOf n index u1) currentRotation
  have h2pi := twoPi_pos
  have hs := sliceAngleOf_pos n
  have hmg : marginOf n = sliceAngleOf n * 0.15 := rfl
  refine ⟨⟨hfr4, hfr7⟩, ?_, ?_, ?_, ?_⟩
  · rw [targetRotationOf]
    have hf : (4:ℝ) ≤ (fullRotationsOf u2 : ℝ) := by exact_mod_cast hfr4
    nlinarith
  · refine ⟨fullRotationsOf u2 + m, ?_⟩
    rw [targetRotationOf, hm]
    push_cast
    ring
  · rw [landingAngleOf]
    have hge : (0:ℝ) ≤ sliceAngleOf n - marginOf n * 2 := by nlinarith
    nlinarith [mul_nonneg hu1 hge]
  · rw [landingAngleOf]
    have hgt : (0:ℝ) < sliceAngleOf n - marginOf n * 2 := by nlinarith
    have hu : u1 * (sliceAngleOf n - marginOf n * 2) <
        sliceAngleOf n - marginOf n * 2 := by nlinarith
    nlinarith

/-- Witness for C2: the concrete plan for a 4-slice wheel, chosen slice
0, both draws 0, current rotation 0. -/
theorem spin_plan_correct_witness :
    ((0:ℝ) ≤ 0 ∧ (0:ℝ) < 1) ∧
    ((4 ≤ fullRotationsOf 0 ∧ fullRotationsOf 0 ≤ 7) ∧
      (0:ℝ) + 4 * twoPi ≤ targetRotationOf 4 0 0 0 0 ∧
      (∃ m : ℤ, landingAngleOf 4 0 0 + targetRotationOf 4 0 0 0 0 =
        pointerAngle + m * twoPi) ∧
      ((0:ℕ) * sliceAngleOf 4 + marginOf 4 ≤ landingAngleOf 4 0 0 ∧
        landingAngleOf 4 0 0 < ((0:ℕ) + 1) * sliceAngleOf 4 - marginOf 4)) :=
  ⟨⟨le_refl 0, by norm_num⟩,
    spin_plan_correct 4 0 0 0 0 (le_refl 0) (by norm_num) (le_refl 0) (by norm_num)⟩

end Spinner
